import Mathlib

/-!
# Verification of the `lab_tools` uncertainty-propagation core

Shallow embedding, over exact rationals/reals, of the
`AffineScalarFunc` / `Variable` / `LinearCombination` family found in
`src/src/lab_tools/test.py` and `src/src/1/main.py`, together with the
correlated-value construction of `src/src/core.py`.

Modelling conventions:
* Python float arithmetic is modelled by exact `ℚ` / `ℝ` arithmetic
  (the spec's claims are algebraic, "up to floating-point tolerance").
* A Python `Variable` is identified by object identity; we model identity
  with an explicit natural-number handle `vid` (the spec itself, §9,
  recommends exactly this modelling for non-Python targets).
* A Python `dict` keyed by `Variable` identity is modelled as an
  insertion-ordered association list with unique keys; `defaultdict(float)`
  accumulation `d[var] += c` is modelled by `addTerm` below, which adds to
  an existing entry or appends a fresh `(var, c)` entry at the end.
* Raised exceptions are modelled with `Except UErr`.
-/

namespace LabTools

/-- The exceptions raised by the uncertainty core:
`NegativeStdDev("The standard deviation cannot be negative")` and
`ValueError("The standard deviation is zero: undefined result")`. -/
inductive UErr where
  | negativeStdDev
  | zeroStdDev
deriving DecidableEq

/-- A `Variable` (test.py line 168, main.py line 189): an independent
quantity with a nominal value and a standard deviation.  `vid` models
Python object identity (`__hash__` is `id(self)`, test.py line 193). -/
structure Var where
  vid : ℕ
  nominal : ℚ
  sd : ℚ
deriving DecidableEq

/-- A `LinearCombination` (test.py lines 22-54): either the expanded form
(a dict from `Variable` to coefficient, modelled as an association list
keyed by `vid`) or the non-expanded form (a list of
`(factor, sub-combination)` pairs). -/
inductive LinComb where
  | expanded (ts : List (Var × ℚ))
  | nonExpanded (ts : List (ℚ × LinComb))

mutual

/-- Size of a combination tree (termination measure for the work-list). -/
def sizeLC : LinComb → ℕ
  | .expanded _ => 1
  | .nonExpanded ts => 1 + sizeTerms ts

/-- Total size of a list of `(factor, sub-combination)` pairs. -/
def sizeTerms : List (ℚ × LinComb) → ℕ
  | [] => 0
  | (_, e) :: rest => sizeLC e + sizeTerms rest

end

theorem sizeLC_pos (e : LinComb) : 1 ≤ sizeLC e := by
  cases e <;> simp [sizeLC]

theorem sizeTerms_append (a b : List (ℚ × LinComb)) :
    sizeTerms (a ++ b) = sizeTerms a + sizeTerms b := by
  induction a with
  | nil => simp [sizeTerms]
  | cons t rest ih => cases t; simp [sizeTerms, ih]; omega

theorem sizeTerms_reverse (a : List (ℚ × LinComb)) :
    sizeTerms a.reverse = sizeTerms a := by
  induction a with
  | nil => rfl
  | cons t rest ih =>
      cases t
      simp [List.reverse_cons, sizeTerms_append, sizeTerms, ih]
      omega

/-- The `defaultdict(float)` accumulation `derivatives[var] += c`
(test.py line 39): add to the entry keyed by `var`'s identity, or append a
fresh entry (default value `0`, so the key is present even when `c = 0`). -/
def addTerm : List (Var × ℚ) → Var → ℚ → List (Var × ℚ)
  | [], v, c => [(v, c)]
  | (w, d) :: rest, v, c =>
      if w.vid = v.vid then (w, d + c) :: rest
      else (w, d) :: addTerm rest v c

/-- The loop `for var, factor in main_expr.linear_combo.items():
derivatives[var] += main_factor * factor` (test.py lines 38-39). -/
def accumTerms (acc : List (Var × ℚ)) (mainFactor : ℚ)
    (ts : List (Var × ℚ)) : List (Var × ℚ) :=
  ts.foldl (fun a p => addTerm a p.1 (mainFactor * p.2)) acc

/-- The loop `for factor, expr in main_expr.linear_combo:
self.linear_combo.append((main_factor * factor, expr))`
(test.py lines 41-42): each pair is rescaled by the popped main factor. -/
def scaleTerms (mainFactor : ℚ) (ts : List (ℚ × LinComb)) :
    List (ℚ × LinComb) :=
  ts.map (fun p => (mainFactor * p.1, p.2))

theorem sizeTerms_scale (f : ℚ) (ts : List (ℚ × LinComb)) :
    sizeTerms (scaleTerms f ts) = sizeTerms ts := by
  induction ts with
  | nil => rfl
  | cons t rest ih => cases t; simp [scaleTerms, sizeTerms] at *; omega

/-- The `while self.linear_combo: main_factor, main_expr =
self.linear_combo.pop(); ...` work-list of `LinearCombination.expand`
(test.py lines 35-42).  Python pops from the END of its list and appends
pushed pairs at the end; we model that stack with the head of a Lean list,
so pushed pairs are prepended in reverse order. -/
def expandLoop : List (ℚ × LinComb) → List (Var × ℚ) → List (Var × ℚ)
  | [], acc => acc
  | (mf, .expanded ts) :: rest, acc => expandLoop rest (accumTerms acc mf ts)
  | (mf, .nonExpanded ts) :: rest, acc =>
      expandLoop ((scaleTerms mf ts).reverse ++ rest) acc
termination_by w _ => sizeTerms w
decreasing_by
  all_goals simp [sizeTerms, sizeLC, sizeTerms_append, sizeTerms_reverse,
    sizeTerms_scale]

/-- Embedding of `LinearCombination.expand` (test.py lines 31-48): an already-expanded
combination is returned unchanged; a non-expanded one is flattened by the
work-list into a dict from `Variable` to cumulative coefficient.  The
initial work-list is the combination's own term list, popped from the
end. -/
def expand : LinComb → List (Var × ℚ)
  | .expanded d => d
  | .nonExpanded ts => expandLoop ts.reverse []

/-- An `AffineScalarFunc` (test.py lines 73-136): a nominal value plus a
linear part over the `Variable`s it depends on. -/
structure AffineScalarFunc where
  nominal : ℚ
  linear_part : LinComb

/-- Embedding of `AffineScalarFunc.derivatives` (test.py lines 89-93): the expanded
linear part, as a dict from `Variable` to coefficient. -/
def derivatives (a : AffineScalarFunc) : List (Var × ℚ) :=
  expand a.linear_part

/-- One entry of `error_components` (test.py lines 98-102): `0` when the
variable's std_dev is exactly `0` (explicit special case, regardless of
the derivative), `abs(derivative * std_dev)` otherwise. -/
def errorComponentVal (v : Var) (d : ℚ) : ℚ :=
  if v.sd = 0 then 0 else |d * v.sd|

/-- Embedding of `AffineScalarFunc.error_components` (test.py lines 95-104). -/
def error_components (a : AffineScalarFunc) : List (Var × ℚ) :=
  (derivatives a).map (fun p => (p.1, errorComponentVal p.1 p.2))

/-- Embedding of `sum(delta**2 for delta in self.error_components().values())`
(test.py line 109): the variance, computed exactly in `ℚ`. -/
def varianceQ (a : AffineScalarFunc) : ℚ :=
  ((error_components a).map (fun p => p.2 ^ 2)).sum

/-- Embedding of `AffineScalarFunc.std_dev` (test.py lines 106-110): the square root of
the sum of the squared error components. -/
noncomputable def std_dev (a : AffineScalarFunc) : ℝ :=
  Real.sqrt (varianceQ a)

/-- Embedding of `AffineScalarFunc.std_score` (test.py lines 129-133):
`(value - self._nominal_value) / self.std_dev`, where Python float
division raises `ZeroDivisionError` exactly when the divisor is `0.0`,
re-raised as `ValueError("The standard deviation is zero: ...")`. -/
noncomputable def std_score (a : AffineScalarFunc) (value : ℝ) :
    Except UErr ℝ :=
  if std_dev a = 0 then .error .zeroStdDev
  else .ok ((value - (a.nominal : ℝ)) / std_dev a)

/-- The trivial linear part `LinearCombination({self: 1.0})` that
`Variable.__init__` installs (test.py line 173). -/
def varLeaf (x : Var) : LinComb := .expanded [(x, 1)]

/-- The `Variable` `x`, seen as the `AffineScalarFunc` it is
(`Variable` is-a `AffineScalarFunc` with linear part `{self: 1.0}`). -/
def varASF (x : Var) : AffineScalarFunc := ⟨x.nominal, varLeaf x⟩

/-- The derived quantity `x - x`: a non-expanded linear combination with
terms `(1, x's linear part)` and `(-1, x's linear part)`. -/
def xMinusX (x : Var) : AffineScalarFunc :=
  ⟨x.nominal - x.nominal, .nonExpanded [(1, varLeaf x), (-1, varLeaf x)]⟩

/-- The derived quantity `x + x`: a non-expanded linear combination with
terms `(1, x's linear part)` and `(1, x's linear part)`. -/
def xPlusX (x : Var) : AffineScalarFunc :=
  ⟨x.nominal + x.nominal, .nonExpanded [(1, varLeaf x), (1, varLeaf x)]⟩

/-!
## Specification-side semantics of expansion

`coeff e i` follows the spec's words: the algebraic sum, over every path
from the root of `e` to an occurrence of the variable with handle `i`, of
the product of the factors along that path.  `sumAt` reads the total
coefficient of a variable off an expanded association list.  The claims
compare the work-list implementation `expand` against this semantics.
-/

mutual

/-- Path-sum semantics of a combination: the net coefficient of the
variable with handle `i`. -/
def coeff : LinComb → ℕ → ℚ
  | .expanded ts, i => sumAtList ts i
  | .nonExpanded ts, i => coeffTerms ts i

/-- Path-sum semantics of a term list: `Σ factor * coeff sub i`. -/
def coeffTerms : List (ℚ × LinComb) → ℕ → ℚ
  | [], _ => 0
  | (f, e) :: rest, i => f * coeff e i + coeffTerms rest i

/-- Total coefficient of variable handle `i` in an association list. -/
def sumAtList : List (Var × ℚ) → ℕ → ℚ
  | [], _ => 0
  | (v, c) :: rest, i => (if v.vid = i then c else 0) + sumAtList rest i

end

/-- Net coefficient of variable handle `i` in an expanded list. -/
def sumAt (ts : List (Var × ℚ)) (i : ℕ) : ℚ := sumAtList ts i

theorem sumAtList_addTerm (acc : List (Var × ℚ)) (v : Var) (c : ℚ) (i : ℕ) :
    sumAtList (addTerm acc v c) i
      = sumAtList acc i + (if v.vid = i then c else 0) := by
  induction acc with
  | nil => simp [addTerm, sumAtList]
  | cons t rest ih =>
      obtain ⟨w, d⟩ := t
      by_cases h : w.vid = v.vid
      · simp [addTerm, h, sumAtList]
        split_ifs <;> ring
      · simp [addTerm, h, sumAtList, ih]
        ring

theorem sumAtList_accumTerms (acc : List (Var × ℚ)) (mf : ℚ)
    (ts : List (Var × ℚ)) (i : ℕ) :
    sumAtList (accumTerms acc mf ts) i
      = sumAtList acc i + mf * sumAtList ts i := by
  induction ts generalizing acc with
  | nil => simp [accumTerms, sumAtList]
  | cons t rest ih =>
      obtain ⟨v, c⟩ := t
      simp [accumTerms, List.foldl_cons] at *
      rw [ih, sumAtList_addTerm]
      simp [sumAtList]
      split_ifs <;> ring

theorem coeffTerms_append (a b : List (ℚ × LinComb)) (i : ℕ) :
    coeffTerms (a ++ b) i = coeffTerms a i + coeffTerms b i := by
  induction a with
  | nil => simp [coeffTerms]
  | cons t rest ih => cases t; simp [coeffTerms, ih]; ring

theorem coeffTerms_reverse (a : List (ℚ × LinComb)) (i : ℕ) :
    coeffTerms a.reverse i = coeffTerms a i := by
  induction a with
  | nil => rfl
  | cons t rest ih =>
      cases t
      simp [List.reverse_cons, coeffTerms_append, coeffTerms, ih]
      ring

theorem coeffTerms_scale (mf : ℚ) (ts : List (ℚ × LinComb)) (i : ℕ) :
    coeffTerms (scaleTerms mf ts) i = mf * coeffTerms ts i := by
  induction ts with
  | nil => simp [scaleTerms, coeffTerms]
  | cons t rest ih =>
      cases t
      simp [scaleTerms, coeffTerms] at *
      rw [ih]
      ring

/-- Main work-list invariant: the loop adds, to the accumulator, exactly
the path-sum semantics of the remaining work. -/
theorem expandLoop_sumAt (w : List (ℚ × LinComb)) (acc : List (Var × ℚ))
    (i : ℕ) :
    sumAtList (expandLoop w acc) i = sumAtList acc i + coeffTerms w i := by
  induction w, acc using expandLoop.induct with
  | case1 acc => simp [expandLoop, coeffTerms]
  | case2 mf ts rest acc ih =>
      rw [expandLoop, ih, sumAtList_accumTerms]
      simp [coeffTerms, coeff]
      ring
  | case3 mf ts rest acc ih =>
      rw [expandLoop, ih, coeffTerms_append, coeffTerms_reverse,
        coeffTerms_scale]
      simp [coeffTerms, coeff]

/-- The function `expand` computes the path-sum semantics. -/
theorem expand_coeff (e : LinComb) (i : ℕ) :
    sumAt (expand e) i = coeff e i := by
  cases e with
  | expanded d => rfl
  | nonExpanded ts =>
      simp [expand, sumAt, expandLoop_sumAt, coeffTerms_reverse,
        sumAtList, coeff]

/-!
## Key sets

The set of variable handles appearing as keys of an expanded dict, and
the set of variable handles occurring anywhere in a combination tree.
Because the accumulator is a `defaultdict`, every variable reached during
expansion becomes a key, even when its net coefficient is `0`.
-/

/-- The key set of an expanded association list. -/
def keysOf (ts : List (Var × ℚ)) : Finset ℕ :=
  (ts.map (fun p => p.1.vid)).toFinset

mutual

/-- All variable handles occurring in a combination tree. -/
def varsLC : LinComb → Finset ℕ
  | .expanded ts => keysOf ts
  | .nonExpanded ts => varsTerms ts

/-- All variable handles occurring in a term list. -/
def varsTerms : List (ℚ × LinComb) → Finset ℕ
  | [] => ∅
  | (_, e) :: rest => varsLC e ∪ varsTerms rest

end

theorem keysOf_addTerm (acc : List (Var × ℚ)) (v : Var) (c : ℚ) :
    keysOf (addTerm acc v c) = insert v.vid (keysOf acc) := by
  induction acc with
  | nil => simp [addTerm, keysOf]
  | cons t rest ih =>
      obtain ⟨w, d⟩ := t
      by_cases h : w.vid = v.vid
      · simp [addTerm, h, keysOf]
      · simp [addTerm, h, keysOf] at *
        rw [ih]
        exact Finset.Insert.comm _ _ _

theorem keysOf_accumTerms (acc : List (Var × ℚ)) (mf : ℚ)
    (ts : List (Var × ℚ)) :
    keysOf (accumTerms acc mf ts) = keysOf acc ∪ keysOf ts := by
  induction ts generalizing acc with
  | nil => simp [accumTerms, keysOf]
  | cons t rest ih =>
      obtain ⟨v, c⟩ := t
      simp only [accumTerms, List.foldl_cons] at *
      rw [ih, keysOf_addTerm]
      ext j
      simp [keysOf]
      try tauto

theorem varsTerms_append (a b : List (ℚ × LinComb)) :
    varsTerms (a ++ b) = varsTerms a ∪ varsTerms b := by
  induction a with
  | nil => simp [varsTerms]
  | cons t rest ih =>
      cases t
      simp [varsTerms, ih, Finset.union_assoc]

theorem varsTerms_reverse (a : List (ℚ × LinComb)) :
    varsTerms a.reverse = varsTerms a := by
  induction a with
  | nil => rfl
  | cons t rest ih =>
      cases t
      simp [List.reverse_cons, varsTerms_append, varsTerms, ih]
      ext j
      simp
      tauto

theorem varsTerms_scale (mf : ℚ) (ts : List (ℚ × LinComb)) :
    varsTerms (scaleTerms mf ts) = varsTerms ts := by
  induction ts with
  | nil => rfl
  | cons t rest ih =>
      cases t
      simp [scaleTerms, varsTerms] at *
      rw [ih]

/-- The loop's key set is the accumulator's keys plus every variable
reached in the remaining work. -/
theorem expandLoop_keys (w : List (ℚ × LinComb)) (acc : List (Var × ℚ)) :
    keysOf (expandLoop w acc) = keysOf acc ∪ varsTerms w := by
  induction w, acc using expandLoop.induct with
  | case1 acc => simp [expandLoop, varsTerms]
  | case2 mf ts rest acc ih =>
      rw [expandLoop, ih, keysOf_accumTerms]
      simp [varsTerms, varsLC, Finset.union_assoc]
  | case3 mf ts rest acc ih =>
      rw [expandLoop, ih, varsTerms_append, varsTerms_reverse,
        varsTerms_scale]
      simp [varsTerms, varsLC, Finset.union_assoc]

theorem expand_keys (ts : List (ℚ × LinComb)) :
    keysOf (expand (.nonExpanded ts)) = varsTerms ts := by
  rw [expand, expandLoop_keys, varsTerms_reverse]
  simp [keysOf]

/-!
## Permutation invariance
-/

theorem coeffTerms_perm {ts ts' : List (ℚ × LinComb)}
    (h : ts.Perm ts') (i : ℕ) : coeffTerms ts i = coeffTerms ts' i := by
  induction h with
  | nil => rfl
  | cons x _ ih => cases x; simp [coeffTerms, ih]
  | swap x y l => cases x; cases y; simp [coeffTerms]; ring
  | trans _ _ ih1 ih2 => rw [ih1, ih2]

theorem varsTerms_perm {ts ts' : List (ℚ × LinComb)}
    (h : ts.Perm ts') : varsTerms ts = varsTerms ts' := by
  induction h with
  | nil => rfl
  | cons x _ ih => cases x; simp [varsTerms, ih]
  | swap x y l =>
      cases x; cases y
      simp [varsTerms]
      ext j
      simp
      tauto
  | trans _ _ ih1 ih2 => rw [ih1, ih2]

/-- Nonnegativity of the exact variance. -/
theorem varianceQ_nonneg (a : AffineScalarFunc) : 0 ≤ varianceQ a := by
  apply List.sum_nonneg
  intro q hq
  simp [varianceQ] at hq
  obtain ⟨v, d, _, rfl⟩ := hq
  positivity

/-- The propagated standard deviation vanishes iff the variance does. -/
theorem std_dev_eq_zero_iff (a : AffineScalarFunc) :
    std_dev a = 0 ↔ varianceQ a = 0 := by
  rw [std_dev, Real.sqrt_eq_zero (by exact_mod_cast varianceQ_nonneg a)]
  exact_mod_cast Iff.rfl

/-!
## The claims
-/

/-- Claim C1. For every Variable `x` with standard deviation `u ≥ 0`, the
derived quantity `x - x` (non-expanded terms `(1, x's linear part)` and
`(-1, x's linear part)`) has std_dev exactly `0`, and `x + x` (terms
`(1, ·)` and `(1, ·)`) has std_dev exactly `2*u`, not `sqrt(2)*u`:
repeated occurrences of the same Variable are merged by algebraic
summation of their coefficients during expansion. -/
theorem c1_same_variable_merging (x : Var) (h : 0 ≤ x.sd) :
    std_dev (xMinusX x) = 0 ∧ std_dev (xPlusX x) = 2 * (x.sd : ℝ) := by
  have hminus : derivatives (xMinusX x) = [(x, -1 + 1)] := by
    simp [derivatives, xMinusX, expand, expandLoop, accumTerms, addTerm,
      varLeaf]
  have hplus : derivatives (xPlusX x) = [(x, 1 + 1)] := by
    simp [derivatives, xPlusX, expand, expandLoop, accumTerms, addTerm,
      varLeaf]
  constructor
  · rw [std_dev]
    have : varianceQ (xMinusX x) = 0 := by
      simp [varianceQ, error_components, hminus, errorComponentVal]
    rw [this]
    simp
  · rw [std_dev]
    have h2 : varianceQ (xPlusX x) = (2 * x.sd) ^ 2 := by
      by_cases hz : x.sd = 0
      · simp [varianceQ, error_components, hplus, errorComponentVal, hz]
      · have habs : |(1 + 1) * x.sd| = 2 * x.sd := by
          rw [abs_of_nonneg (by positivity)]
          ring
        simp [varianceQ, error_components, hplus, errorComponentVal, hz,
          habs]
    rw [h2]
    push_cast
    exact Real.sqrt_sq (by positivity)

/-- A running sum `total = x; repeat k times: total = (total + x) - x`,
built exactly as the spec's operators build it: addition concatenates the
two linear parts with factor `1` each, and subtraction adds the term
`(-1, subtrahend's linear part)`. -/
def runningSum (x : Var) : ℕ → LinComb
  | 0 => varLeaf x
  | k + 1 =>
      .nonExpanded [(1, .nonExpanded [(1, runningSum x k), (1, varLeaf x)]),
        (-1, varLeaf x)]

theorem runningSum_coeff (x : Var) (k : ℕ) :
    coeff (runningSum x k) x.vid = 1 := by
  induction k with
  | zero => simp [runningSum, varLeaf, coeff, sumAtList]
  | succ k ih =>
      simp [runningSum, coeff, coeffTerms, varLeaf, sumAtList, ih]

/-- Claim C2. `expand` returns the flat mapping that assigns to every
variable the algebraic sum, over every path from the root to an occurrence
of that variable, of the product of the factors along that path (the
path-sum semantics `coeff`); the iterative work-list therefore expands
arbitrarily deep chains correctly — in particular the `k`-step running sum
`total = total + x - x` keeps net coefficient `1` on `x` for every `k`. -/
theorem c2_expand_is_path_sum :
    (∀ (ts : List (ℚ × LinComb)) (i : ℕ),
      sumAt (expand (.nonExpanded ts)) i = coeff (.nonExpanded ts) i)
    ∧ ∀ (x : Var) (k : ℕ), sumAt (expand (runningSum x k)) x.vid = 1 := by
  constructor
  · intro ts i
    exact expand_coeff (.nonExpanded ts) i
  · intro x k
    rw [expand_coeff]
    exact runningSum_coeff x k

/-- Claim C5. For every AffineScalarFunc whose variables carry nonnegative
standard deviations, `std_dev` equals the square root of the sum over its
expanded derivatives of `(|derivative| * std_dev)^2`; a variable with
std_dev exactly `0` contributes an error component of exactly `0`
regardless of its derivative; and `error_components` exposes exactly
these per-variable magnitudes. -/
theorem c5_error_components (a : AffineScalarFunc)
    (h : ∀ p ∈ derivatives a, 0 ≤ p.1.sd) :
    std_dev a
        = Real.sqrt
            ((((derivatives a).map
                (fun p => (|p.2| * p.1.sd) ^ 2)).sum : ℚ) : ℝ)
      ∧ (∀ (v : Var) (d : ℚ), v.sd = 0 → errorComponentVal v d = 0)
      ∧ error_components a
          = (derivatives a).map
              (fun p => (p.1, if p.1.sd = 0 then 0 else |p.2| * p.1.sd)) := by
  refine ⟨?_, ?_, ?_⟩
  · rw [std_dev]
    congr 1
    norm_cast
    rw [varianceQ, error_components, List.map_map]
    congr 1
    apply List.map_congr_left
    intro p _
    by_cases hz : p.1.sd = 0
    · simp [errorComponentVal, hz]
    · simp [errorComponentVal, hz, abs_mul, mul_pow]
  · intro v d hv
    simp [errorComponentVal, hv]
  · rw [error_components]
    apply List.map_congr_left
    intro p hp
    by_cases hz : p.1.sd = 0
    · simp [errorComponentVal, hz]
    · simp [errorComponentVal, hz, abs_mul, abs_of_nonneg (h p hp)]

/-- Claim C7. `std_score(value)` returns
`(value - nominal_value) / std_dev` when the standard deviation is
nonzero, and raises the zero-standard-deviation `ValueError` when it is
exactly `0` (equivalently, when the exact variance vanishes). -/
theorem c7_std_score (a : AffineScalarFunc) (v : ℝ) :
    (std_dev a = 0 ↔ varianceQ a = 0)
    ∧ (varianceQ a = 0 → std_score a v = .error .zeroStdDev)
    ∧ (varianceQ a ≠ 0 →
        std_score a v = .ok ((v - (a.nominal : ℝ)) / std_dev a)) := by
  refine ⟨std_dev_eq_zero_iff a, ?_, ?_⟩
  · intro hz
    rw [std_score, if_pos ((std_dev_eq_zero_iff a).mpr hz)]
  · intro hz
    rw [std_score,
      if_neg (fun hc => hz ((std_dev_eq_zero_iff a).mp hc))]

/-- Claim C8. Expansion is idempotent — an already-expanded combination is
returned unchanged — and the expanded result of a non-expanded
combination has the same key set and the same coefficients regardless of
the order in which its terms were combined. -/
theorem c8_idempotent_order_independent :
    (∀ d : List (Var × ℚ), expand (.expanded d) = d)
    ∧ ∀ ts ts' : List (ℚ × LinComb), ts.Perm ts' →
        (∀ i, sumAt (expand (.nonExpanded ts)) i
            = sumAt (expand (.nonExpanded ts')) i)
        ∧ keysOf (expand (.nonExpanded ts))
            = keysOf (expand (.nonExpanded ts')) := by
  refine ⟨fun d => rfl, fun ts ts' hperm => ⟨?_, ?_⟩⟩
  · intro i
    rw [expand_coeff, expand_coeff]
    simp only [coeff]
    exact coeffTerms_perm hperm i
  · rw [expand_keys, expand_keys]
    exact varsTerms_perm hperm

/-- Concrete input for the C8 witness: two-term combinations that are
permutations of each other. -/
def c8ts0 : List (ℚ × LinComb) :=
  [(2, varLeaf ⟨0, 1, 1⟩), (3, varLeaf ⟨1, 2, 1⟩)]

/-- The same two terms in the opposite order. -/
def c8ts1 : List (ℚ × LinComb) :=
  [(3, varLeaf ⟨1, 2, 1⟩), (2, varLeaf ⟨0, 1, 1⟩)]

/-- Witness for C8 at a concrete permutation. -/
theorem c8_witness :
    c8ts0.Perm c8ts1
    ∧ sumAt (expand (.nonExpanded c8ts0)) 0
        = sumAt (expand (.nonExpanded c8ts1)) 0 := by
  have hperm : c8ts0.Perm c8ts1 := List.Perm.swap _ _ _
  exact ⟨hperm, (c8_idempotent_order_independent.2 c8ts0 c8ts1 hperm).1 0⟩

/-- Concrete variable for the C1 witness. -/
def c1x : Var := ⟨0, 5, 1⟩

/-- Witness for C1 at `x = Variable(5, 1)`. -/
theorem c1_witness :
    (0 : ℚ) ≤ c1x.sd
    ∧ (std_dev (xMinusX c1x) = 0
        ∧ std_dev (xPlusX c1x) = 2 * (c1x.sd : ℝ)) :=
  ⟨by norm_num [c1x], c1_same_variable_merging c1x (by norm_num [c1x])⟩

/-- Concrete input for the C5 witness: nominal `3`, one variable of
std_dev `2` with derivative `3`. -/
def c5a : AffineScalarFunc := ⟨3, .expanded [(⟨0, 5, 2⟩, 3)]⟩

/-- Witness for C5 at a concrete one-variable function. -/
theorem c5_witness :
    (∀ p ∈ derivatives c5a, 0 ≤ p.1.sd)
    ∧ (std_dev c5a
        = Real.sqrt
            ((((derivatives c5a).map
                (fun p => (|p.2| * p.1.sd) ^ 2)).sum : ℚ) : ℝ)
      ∧ (∀ (v : Var) (d : ℚ), v.sd = 0 → errorComponentVal v d = 0)
      ∧ error_components c5a
          = (derivatives c5a).map
              (fun p => (p.1, if p.1.sd = 0 then 0 else |p.2| * p.1.sd))) := by
  have h : ∀ p ∈ derivatives c5a, 0 ≤ p.1.sd := by
    intro p hp
    simp [derivatives, c5a, expand] at hp
    rw [hp]
    norm_num
  exact ⟨h, c5_error_components c5a h⟩

/-- Concrete input for the C7 witness: the Variable `Variable(5, 0)`. -/
def c7a : AffineScalarFunc := varASF ⟨0, 5, 0⟩

/-- Witness for C7: `Variable(5, 0).std_score(6)` raises the
zero-standard-deviation error. -/
theorem c7_witness :
    varianceQ c7a = 0 ∧ std_score c7a 6 = .error .zeroStdDev := by
  have h : varianceQ c7a = 0 := by
    simp [varianceQ, error_components, derivatives, c7a, varASF, varLeaf,
      expand, errorComponentVal]
  exact ⟨h, (c7_std_score c7a 6).2.1 h⟩

/-!
## Standard-deviation validation (claim C4)

The validation logic manipulates Python floats, which may be infinite;
`FVal` models exactly the values the cited code paths distinguish
(a finite rational, `+inf`, `-inf`).
-/

/-- A Python float as far as the std_dev validation distinguishes it. -/
inductive FVal where
  | fin (q : ℚ)
  | posInf
  | negInf
deriving DecidableEq

/-- The test `std_dev < 0` on Python floats. -/
def fvalNeg : FVal → Bool
  | .fin q => decide (q < 0)
  | .posInf => false
  | .negInf => true

/-- Embedding of `math.isfinite` (main.py) / `np.isfinite` (test.py). -/
def fvalFinite : FVal → Bool
  | .fin _ => true
  | .posInf => false
  | .negInf => false

/-- The `std_dev` property setter (test.py lines 181-186, main.py lines
202-206): `if std_dev < 0 and isfinite(std_dev): raise NegativeStdDev(...)`
then `self._std_dev = float(std_dev)`. -/
def stdDevSetter (sd : FVal) : Except UErr FVal :=
  if fvalNeg sd && fvalFinite sd then .error .negativeStdDev
  else .ok sd

/-- Embedding of `Variable.__init__` of the test.py draft (lines 171-175): the initial
std_dev (`std_dev if std_dev is not None else 0`) is assigned through the
property setter, hence validated; the result is `(value, stored sd)`. -/
def varInitTest (value : ℚ) (sd : Option FVal) : Except UErr (ℚ × FVal) :=
  (stdDevSetter (sd.getD (.fin 0))).map (fun s => (value, s))

/-- Embedding of `Variable.__init__` of the main.py draft (lines 192-196):
`self._std_dev = std_dev` writes the slot directly, bypassing the
validating setter, so construction never raises. -/
def varInitMain (value : ℚ) (sd : FVal) : ℚ × FVal :=
  (value, sd)

/-- Claim C4 (code evaluated at the failing input). The main.py draft's
constructor accepts `Variable(5, -1)` without raising, storing `-1`
(bypassing its own validating setter), while the test.py draft's
constructor rejects the same input with `NegativeStdDev`; every
assignment through the setter re-validates (rejecting `-1`), and a
std_dev of `+inf` is accepted both at construction (both drafts) and on
assignment. -/
theorem c4_negative_std_dev :
    varInitMain 5 (.fin (-1)) = (5, .fin (-1))
    ∧ varInitTest 5 (some (.fin (-1))) = .error .negativeStdDev
    ∧ stdDevSetter (.fin (-1)) = .error .negativeStdDev
    ∧ stdDevSetter .posInf = .ok .posInf
    ∧ varInitTest 5 (some .posInf) = .ok (5, .posInf)
    ∧ varInitMain 5 .posInf = (5, .posInf) := by
  refine ⟨rfl, ?_, ?_, ?_, ?_, rfl⟩ <;>
    norm_num [varInitTest, stdDevSetter, fvalNeg, fvalFinite, Except.map]

/-!
## Stateful expansion and aliasing (claim C6)

To observe the in-place mutation of `expand` (`self.linear_combo.pop()`
drains the popped combination's own term list), combinations are given
object identities: a heap `σ : ℕ → LCObj` maps each handle to either an
expanded dict or a non-expanded list of `(factor, handle)` pairs
referencing other combinations.  `expandS` is the method
`LinearCombination.expand` of test.py lines 31-48 on this heap: it drains
the receiver (leaving it a non-expanded empty list) and returns a fresh
expanded dict; sub-expressions are only read, never mutated. -/
inductive LCObj where
  | expandedO (ts : List (Var × ℚ))
  | nonExpandedO (ts : List (ℚ × ℕ))
deriving DecidableEq

/-- Rescaling pushed `(factor, handle)` pairs by the popped factor. -/
def scaleRefs (mf : ℚ) (ts : List (ℚ × ℕ)) : List (ℚ × ℕ) :=
  ts.map (fun p => (mf * p.1, p.2))

/-- The work-list loop of `expand` over the heap, fuelled (Python object
graphs are acyclic by construction order, so enough fuel always exists;
`none` only reports fuel exhaustion). -/
def expandLoopS (σ : ℕ → LCObj) :
    ℕ → List (ℚ × ℕ) → List (Var × ℚ) → Option (List (Var × ℚ))
  | _, [], acc => some acc
  | 0, _ :: _, _ => none
  | fuel + 1, (mf, r) :: rest, acc =>
      match σ r with
      | .expandedO ts => expandLoopS σ fuel rest (accumTerms acc mf ts)
      | .nonExpandedO ts =>
          expandLoopS σ fuel ((scaleRefs mf ts).reverse ++ rest) acc

/-- Embedding of `LinearCombination.expand` on the heap: an expanded receiver returns
itself with the heap untouched; a non-expanded receiver is drained (its
term list is left empty in the resulting heap) and a fresh expanded dict
is returned. -/
def expandS (σ : ℕ → LCObj) (r : ℕ) (fuel : ℕ) :
    Option (List (Var × ℚ) × (ℕ → LCObj)) :=
  match σ r with
  | .expandedO ts => some (ts, σ)
  | .nonExpandedO ts =>
      (expandLoopS σ fuel ts.reverse []).map
        (fun acc => (acc, fun i => if i = r then .nonExpandedO [] else σ i))

/-- The variable of the C6 counterexample. -/
def c6x : Var := ⟨0, 5, 1⟩

/-- Heap of the C6 counterexample: handle `0` is the expanded leaf
`{x: 1}`, handle `1` is the combination `A = [(1, leaf)]`, handle `2` is
the combination `B = [(2, A)]`, so `B` references `A` as a non-expanded
sub-expression. -/
def c6store : ℕ → LCObj := fun n =>
  if n = 1 then .nonExpandedO [(1, 0)]
  else if n = 2 then .nonExpandedO [(2, 1)]
  else .expandedO [(c6x, 1)]

/-- Claim C6 counterexample. Expanding `B` alone gives `x` the coefficient
`2`; expanding `A` first (which drains `A`'s term list) and then `B`
gives `x` the coefficient `0`: expansion of a shared non-expanded
sub-expression is *not* safe to be observed by the other owner. -/
theorem c6_counterexample :
    (expandS c6store 2 9).map (fun p => sumAt p.1 c6x.vid) = some 2
    ∧ ((expandS c6store 1 9).bind (fun p => expandS p.2 2 9)).map
        (fun p => sumAt p.1 c6x.vid) = some 0
    ∧ ((expandS c6store 1 9).bind (fun p => expandS p.2 2 9)).map
          (fun p => sumAt p.1 c6x.vid)
        ≠ (expandS c6store 2 9).map (fun p => sumAt p.1 c6x.vid) := by
  refine ⟨?_, ?_, ?_⟩ <;>
    norm_num [expandS, expandLoopS, c6store, scaleRefs, accumTerms,
      addTerm, sumAt, sumAtList, c6x]

/-- Claim C6 (amended). Expanding a combination that is *already expanded*
leaves the heap untouched, so any other combination `B` still referencing
it expands afterwards exactly as it would have alone; sharing is safe
only in that case (by the counterexample, expanding a shared
*non-expanded* sub-expression drains it and the other owner loses its
contribution). -/
theorem c6_amended (σ : ℕ → LCObj) (a : ℕ) (d : List (Var × ℚ))
    (b fuel fuel' : ℕ) (h : σ a = .expandedO d) :
    expandS σ a fuel = some (d, σ)
    ∧ (expandS σ a fuel).bind (fun p => expandS p.2 b fuel')
        = expandS σ b fuel' := by
  have h1 : expandS σ a fuel = some (d, σ) := by
    simp [expandS, h]
  exact ⟨h1, by rw [h1]; rfl⟩

/-- Heap for the C6 amended witness: handle `0` is an expanded leaf,
handle `1` references it. -/
def c6store' : ℕ → LCObj := fun n =>
  if n = 0 then .expandedO [(c6x, 1)] else .nonExpandedO [(2, 0)]

/-- Witness for the amended C6 at a concrete heap. -/
theorem c6_amended_witness :
    c6store' 0 = .expandedO [(c6x, 1)]
    ∧ (expandS c6store' 0 5 = some ([(c6x, 1)], c6store')
      ∧ (expandS c6store' 0 5).bind (fun p => expandS p.2 1 5)
          = expandS c6store' 1 5) := by
  have h : c6store' 0 = .expandedO [(c6x, 1)] := by norm_num [c6store']
  exact ⟨h, c6_amended c6store' 0 [(c6x, 1)] 1 5 5 h⟩

/-!
## Deep copy (claim C9)

`copy.deepcopy` of an `AffineScalarFunc` (test.py lines 135-136) rebuilds
one with a deep copy of the linear part.  `LinearCombination` has no
`__deepcopy__`, so the copy module recursively deep-copies its
list/dict state — including the dict *keys*, i.e. the `Variable`s, whose
`__deepcopy__` delegates to `__copy__` (test.py lines 195-199) and
returns a *new* `Variable` with the same nominal value and std_dev.  The
copy module's memo is modelled by `CopyState`: each distinct original
`Variable` (by handle) is copied once; fresh handles are drawn from a
monotone counter, so they differ from every pre-existing handle. -/
structure CopyState where
  memo : List (ℕ × ℕ)
  next : ℕ

/-- Lookup `memo.get(id(x))`: the handle already assigned to an original
handle, if any. -/
def memoFind : List (ℕ × ℕ) → ℕ → Option ℕ
  | [], _ => none
  | (k, j) :: rest, i => if k = i then some j else memoFind rest i

theorem memoFind_bound {m : List (ℕ × ℕ)} {i j n0 : ℕ}
    (h : memoFind m i = some j) (hm : ∀ p ∈ m, n0 ≤ p.2) : n0 ≤ j := by
  induction m with
  | nil => simp [memoFind] at h
  | cons t rest ih =>
      obtain ⟨k, j'⟩ := t
      by_cases hk : k = i
      · simp [memoFind, hk] at h
        rw [← h]
        exact hm (k, j') (List.mem_cons_self _ _)
      · simp [memoFind, hk] at h
        exact ih h (fun p hp => hm p (by simp [hp]))

/-- Deep copy of one `Variable`: memoized `Variable(nominal_value,
std_dev)` with a fresh identity. -/
def deepcopyVar (v : Var) (s : CopyState) : Var × CopyState :=
  match memoFind s.memo v.vid with
  | some j => (⟨j, v.nominal, v.sd⟩, s)
  | none =>
      (⟨s.next, v.nominal, v.sd⟩, ⟨(v.vid, s.next) :: s.memo, s.next + 1⟩)

mutual

/-- Deep copy of a `LinearCombination`'s state. -/
def deepcopyLC : LinComb → CopyState → LinComb × CopyState
  | .expanded ts, s =>
      let p := deepcopyDict ts s
      (.expanded p.1, p.2)
  | .nonExpanded ts, s =>
      let p := deepcopyTerms ts s
      (.nonExpanded p.1, p.2)

/-- Deep copy of an expanded dict: both keys and values are copied. -/
def deepcopyDict : List (Var × ℚ) → CopyState → List (Var × ℚ) × CopyState
  | [], s => ([], s)
  | (v, c) :: rest, s =>
      let pv := deepcopyVar v s
      let pr := deepcopyDict rest pv.2
      ((pv.1, c) :: pr.1, pr.2)

/-- Deep copy of a non-expanded term list. -/
def deepcopyTerms :
    List (ℚ × LinComb) → CopyState → List (ℚ × LinComb) × CopyState
  | [], s => ([], s)
  | (f, e) :: rest, s =>
      let pe := deepcopyLC e s
      let pr := deepcopyTerms rest pe.2
      ((f, pe.1) :: pr.1, pr.2)

end

/-- Embedding of `AffineScalarFunc.__deepcopy__` (test.py lines 135-136):
`AffineScalarFunc(self._nominal_value, copy.deepcopy(self._linear_part))`. -/
def deepcopyASF (a : AffineScalarFunc) (s : CopyState) :
    AffineScalarFunc × CopyState :=
  let p := deepcopyLC a.linear_part s
  (⟨a.nominal, p.1⟩, p.2)

/-- Embedding of `Variable.__copy__` (test.py lines 195-196):
`Variable(self.nominal_value, self.std_dev)` under a fresh identity
(`Variable.__deepcopy__` delegates to it, test.py lines 198-199). -/
def copyVar (x : Var) (fresh : ℕ) : Var := ⟨fresh, x.nominal, x.sd⟩

mutual

/-- All variable handles of a combination, in occurrence order. -/
def varIdsLC : LinComb → List ℕ
  | .expanded ts => ts.map (fun p => p.1.vid)
  | .nonExpanded ts => varIdsTerms ts

/-- All variable handles of a term list. -/
def varIdsTerms : List (ℚ × LinComb) → List ℕ
  | [] => []
  | (_, e) :: rest => varIdsLC e ++ varIdsTerms rest

end

mutual

/-- A combination with every variable handle blanked to `0`: two
combinations agree under `eraseIds` iff they are structurally equal with
the same factors, coefficients, nominal values and std_devs, differing at
most in variable identities. -/
def eraseIds : LinComb → LinComb
  | .expanded ts =>
      .expanded (ts.map (fun p => (⟨0, p.1.nominal, p.1.sd⟩, p.2)))
  | .nonExpanded ts => .nonExpanded (eraseIdsTerms ts)

/-- Action of `eraseIds` on a term list. -/
def eraseIdsTerms : List (ℚ × LinComb) → List (ℚ × LinComb)
  | [] => []
  | (f, e) :: rest => (f, eraseIds e) :: eraseIdsTerms rest

end

/-- Invariant carried through a deep copy: the fresh counter and every
handle already assigned by the memo are at least `n0`. -/
def FreshFrom (n0 : ℕ) (s : CopyState) : Prop :=
  n0 ≤ s.next ∧ ∀ p ∈ s.memo, n0 ≤ p.2

theorem deepcopyVar_fresh (n0 : ℕ) (v : Var) (s : CopyState)
    (h : FreshFrom n0 s) :
    FreshFrom n0 (deepcopyVar v s).2
    ∧ n0 ≤ (deepcopyVar v s).1.vid
    ∧ (deepcopyVar v s).1.nominal = v.nominal
    ∧ (deepcopyVar v s).1.sd = v.sd := by
  obtain ⟨hn, hm⟩ := h
  cases hl : memoFind s.memo v.vid with
  | some j =>
      have hs : deepcopyVar v s = (⟨j, v.nominal, v.sd⟩, s) := by
        simp [deepcopyVar, hl]
      rw [hs]
      exact ⟨⟨hn, hm⟩, memoFind_bound hl hm, rfl, rfl⟩
  | none =>
      have hs : deepcopyVar v s
          = (⟨s.next, v.nominal, v.sd⟩,
              ⟨(v.vid, s.next) :: s.memo, s.next + 1⟩) := by
        simp [deepcopyVar, hl]
      rw [hs]
      refine ⟨⟨Nat.le_succ_of_le hn, ?_⟩, hn, rfl, rfl⟩
      intro p hp
      rcases List.mem_cons.mp hp with h1 | h2
      · rw [h1]; exact hn
      · exact hm _ h2

mutual

theorem deepcopyLC_fresh (n0 : ℕ) (e : LinComb) (s : CopyState)
    (h : FreshFrom n0 s) :
    FreshFrom n0 (deepcopyLC e s).2
    ∧ eraseIds (deepcopyLC e s).1 = eraseIds e
    ∧ ∀ i ∈ varIdsLC (deepcopyLC e s).1, n0 ≤ i := by
  cases e with
  | expanded ts =>
      have hd := deepcopyDict_fresh n0 ts s h
      exact ⟨hd.1, by simp [deepcopyLC, eraseIds, hd.2.1],
        by simpa [deepcopyLC, varIdsLC] using hd.2.2⟩
  | nonExpanded ts =>
      have hd := deepcopyTerms_fresh n0 ts s h
      exact ⟨hd.1, by simp [deepcopyLC, eraseIds, hd.2.1],
        by simpa [deepcopyLC, varIdsLC] using hd.2.2⟩

theorem deepcopyDict_fresh (n0 : ℕ) (ts : List (Var × ℚ)) (s : CopyState)
    (h : FreshFrom n0 s) :
    FreshFrom n0 (deepcopyDict ts s).2
    ∧ (deepcopyDict ts s).1.map (fun p => ((⟨0, p.1.nominal, p.1.sd⟩ : Var), p.2))
        = ts.map (fun p => ((⟨0, p.1.nominal, p.1.sd⟩ : Var), p.2))
    ∧ ∀ i ∈ (deepcopyDict ts s).1.map (fun p => p.1.vid), n0 ≤ i := by
  induction ts generalizing s with
  | nil => exact ⟨h, rfl, by simp [deepcopyDict]⟩
  | cons t rest ih =>
      obtain ⟨v, c⟩ := t
      have hv := deepcopyVar_fresh n0 v s h
      have hr := ih (deepcopyVar v s).2 hv.1
      refine ⟨hr.1, ?_, ?_⟩
      · simp [deepcopyDict, hv.2.2.1, hv.2.2.2, hr.2.1]
      · intro i hi
        simp [deepcopyDict] at hi
        rcases hi with h1 | h2
        · rw [h1]; exact hv.2.1
        · exact hr.2.2 i (by simpa using h2)

theorem deepcopyTerms_fresh (n0 : ℕ) (ts : List (ℚ × LinComb))
    (s : CopyState) (h : FreshFrom n0 s) :
    FreshFrom n0 (deepcopyTerms ts s).2
    ∧ eraseIdsTerms (deepcopyTerms ts s).1 = eraseIdsTerms ts
    ∧ ∀ i ∈ varIdsTerms (deepcopyTerms ts s).1, n0 ≤ i := by
  cases ts with
  | nil => exact ⟨h, rfl, by simp [deepcopyTerms, varIdsTerms]⟩
  | cons t rest =>
      obtain ⟨f, e⟩ := t
      have he := deepcopyLC_fresh n0 e s h
      have hr := deepcopyTerms_fresh n0 rest (deepcopyLC e s).2 he.1
      refine ⟨hr.1, ?_, ?_⟩
      · simp [deepcopyTerms, eraseIdsTerms, he.2.1, hr.2.1]
      · intro i hi
        simp [deepcopyTerms, varIdsTerms] at hi
        rcases hi with h1 | h2
        · exact he.2.2 i h1
        · exact hr.2.2 i h2

end

/-- Claim C9 counterexample. Deep-copying the AffineScalarFunc
`⟨7, [(1, {x: 1})]⟩` built over the Variable `x` with handle `0`
(nominal `5`, std_dev `1`), with the fresh counter at `1`, produces a
linear part whose only variable handle is `1`, not `0`: the Variable is
*not* preserved by reference — it is replaced by a fresh copy. -/
theorem c9_counterexample :
    varIdsLC ((deepcopyASF
        ⟨7, .nonExpanded [(1, varLeaf ⟨0, 5, 1⟩)]⟩ ⟨[], 1⟩).1.linear_part)
      = [1]
    ∧ varIdsLC (LinComb.nonExpanded [(1, varLeaf (⟨0, 5, 1⟩ : Var))]) = [0]
    ∧ varIdsLC ((deepcopyASF
          ⟨7, .nonExpanded [(1, varLeaf ⟨0, 5, 1⟩)]⟩ ⟨[], 1⟩).1.linear_part)
        ≠ varIdsLC (LinComb.nonExpanded [(1, varLeaf (⟨0, 5, 1⟩ : Var))]) := by
  refine ⟨?_, ?_, ?_⟩ <;>
    norm_num [deepcopyASF, deepcopyLC, deepcopyTerms, deepcopyDict,
      deepcopyVar, memoFind, varLeaf, varIdsLC, varIdsTerms]

/-- Claim C9 (amended). Deep-copying an AffineScalarFunc produces an
independent value with the same nominal value and a structurally copied
(not aliased) linear part carrying the same factors, coefficients,
nominal values and std_devs — but the Variables are not preserved by
reference: every Variable is itself deep-copied (via `__copy__`) into a
fresh Variable whose handle is new (at least the allocator's counter,
hence distinct from every pre-existing handle), deliberately breaking the
correlation with the original; and copying a Variable itself produces a
new independent Variable with the same nominal value and std_dev and a
distinct identity. -/
theorem c9_deepcopy (a : AffineScalarFunc) (n0 : ℕ) (x : Var) (fresh : ℕ)
    (hfresh : x.vid < fresh) :
    (deepcopyASF a ⟨[], n0⟩).1.nominal = a.nominal
    ∧ eraseIds (deepcopyASF a ⟨[], n0⟩).1.linear_part
        = eraseIds a.linear_part
    ∧ (∀ i ∈ varIdsLC (deepcopyASF a ⟨[], n0⟩).1.linear_part, n0 ≤ i)
    ∧ (copyVar x fresh).nominal = x.nominal
    ∧ (copyVar x fresh).sd = x.sd
    ∧ (copyVar x fresh).vid ≠ x.vid := by
  have h := deepcopyLC_fresh n0 a.linear_part ⟨[], n0⟩
    ⟨le_refl n0, by simp⟩
  exact ⟨rfl, h.2.1, h.2.2, rfl, rfl, by simp [copyVar]; omega⟩

/-- Witness for the amended C9 at a concrete function and variable. -/
theorem c9_witness :
    (⟨0, 5, 1⟩ : Var).vid < 3
    ∧ ((deepcopyASF ⟨7, .nonExpanded [(1, varLeaf ⟨0, 5, 1⟩)]⟩
          ⟨[], 1⟩).1.nominal = 7
      ∧ eraseIds (deepcopyASF ⟨7, .nonExpanded [(1, varLeaf ⟨0, 5, 1⟩)]⟩
            ⟨[], 1⟩).1.linear_part
          = eraseIds (LinComb.nonExpanded [(1, varLeaf ⟨0, 5, 1⟩)])
      ∧ (∀ i ∈ varIdsLC ((deepcopyASF
            ⟨7, .nonExpanded [(1, varLeaf ⟨0, 5, 1⟩)]⟩
              ⟨[], 1⟩).1.linear_part), 1 ≤ i)
      ∧ (copyVar ⟨0, 5, 1⟩ 3).nominal = (⟨0, 5, 1⟩ : Var).nominal
      ∧ (copyVar ⟨0, 5, 1⟩ 3).sd = (⟨0, 5, 1⟩ : Var).sd
      ∧ (copyVar ⟨0, 5, 1⟩ 3).vid ≠ (⟨0, 5, 1⟩ : Var).vid) :=
  ⟨by norm_num,
    c9_deepcopy ⟨7, .nonExpanded [(1, varLeaf ⟨0, 5, 1⟩)]⟩ 1 ⟨0, 5, 1⟩ 3
      (by norm_num)⟩

/-!
## Correlated-value construction (claims C3 and C10)

`correlated_values` (core.py lines 15-25) and `correlated_values_norm`
(core.py lines 28-54).  `numpy.linalg.eigh` is an external collaborator:
its output — the eigenvalue vector `variances` and eigenvector matrix
`transform` of the correlation matrix — is passed in as data, with its
contract (`corr = transform · diag(variances) · transformᵀ`) as a
hypothesis where a claim needs it.

Two views are embedded: a `Fin n`-indexed view of the well-typed square
case for the covariance round trip (C3), and a raw `List` view capturing
the actual length behaviour (`zip` truncation) for the dimensionality
claim (C10).
-/

/-- Embedding of `std_devs = np.sqrt(np.diag(covariance_mat))` (core.py line 16). -/
noncomputable def covStdDevs {n : ℕ} (cov : Fin n → Fin n → ℝ) (i : Fin n) :
    ℝ :=
  Real.sqrt (cov i i)

/-- Embedding of `norm_vector = std_devs.copy(); norm_vector[norm_vector == 0] = 1`
(core.py lines 18-19): guard a zero std_dev by substituting 1. -/
noncomputable def normVector {n : ℕ} (cov : Fin n → Fin n → ℝ) (i : Fin n) :
    ℝ :=
  if covStdDevs cov i = 0 then 1 else covStdDevs cov i

/-- Embedding of `covariance_mat / norm_vector / norm_vector[:, np.newaxis]`
(core.py line 23): entry `(i, j)` is divided by `norm_vector[j]`, then by
`norm_vector[i]`. -/
noncomputable def correlationOf {n : ℕ} (cov : Fin n → Fin n → ℝ)
    (i j : Fin n) : ℝ :=
  cov i j / normVector cov j / normVector cov i

/-- Embedding of `variances[variances < 0] = 0.0` (core.py line 36): negative
eigenvalues (numerical artifacts) are clamped to `0`. -/
noncomputable def clampedVariances {n : ℕ} (variances : Fin n → ℝ)
    (k : Fin n) : ℝ :=
  if variances k < 0 then 0 else variances k

/-- The variance of the `k`-th latent source
`Variable(0, sqrt(variance))` (core.py lines 38-42). -/
noncomputable def latentVariance {n : ℕ} (variances : Fin n → ℝ)
    (k : Fin n) : ℝ :=
  Real.sqrt (clampedVariances variances k) ^ 2

/-- Embedding of `transform *= std_devs[:, np.newaxis]` (core.py line 46): row `i` of
the eigenvector matrix is scaled by `std_devs[i]`; entry `(i, k)` is the
derivative of the `i`-th constructed value w.r.t. the `k`-th latent
variable (core.py lines 49-52). -/
noncomputable def scaledTransform {n : ℕ} (transform cov : Fin n → Fin n → ℝ)
    (i k : Fin n) : ℝ :=
  transform i k * covStdDevs cov i

/-- The pairwise covariance recomputed from the constructed values:
`Σ_k derivative_k(A) · derivative_k(B) · var(latent_k)`. -/
noncomputable def recoveredCovariance {n : ℕ}
    (cov transform : Fin n → Fin n → ℝ) (variances : Fin n → ℝ)
    (A B : Fin n) : ℝ :=
  ∑ k, scaledTransform transform cov A k * scaledTransform transform cov B k
    * latentVariance variances k

/-- Claim C3. For every symmetric covariance matrix (nonnegative diagonal,
with a zero diagonal entry forcing its row to vanish — both consequences
of positive semidefiniteness) and every exact eigendecomposition
`(variances, transform)` of its normalized correlation matrix with
nonnegative eigenvalues (so the clamp is inert, "up to the eigenvalue
clamp"), the covariances recomputed from the constructed values'
derivatives over the latent variables reproduce the original matrix
exactly — including entries guarded by the zero-std-dev substitution. -/
theorem c3_correlated_values_round_trip {n : ℕ}
    (cov transform : Fin n → Fin n → ℝ) (variances : Fin n → ℝ)
    (hsym : ∀ i j, cov i j = cov j i)
    (hdiag : ∀ i, 0 ≤ cov i i)
    (hzero : ∀ i, cov i i = 0 → ∀ j, cov i j = 0)
    (heig : ∀ i j, correlationOf cov i j
        = ∑ k, transform i k * variances k * transform j k)
    (hnneg : ∀ k, 0 ≤ variances k) :
    ∀ A B, recoveredCovariance cov transform variances A B = cov A B := by
  have hlat : ∀ k, latentVariance variances k = variances k := by
    intro k
    rw [latentVariance, clampedVariances, if_neg (not_lt.mpr (hnneg k)),
      Real.sq_sqrt (hnneg k)]
  intro A B
  have key : recoveredCovariance cov transform variances A B
      = covStdDevs cov A * covStdDevs cov B * correlationOf cov A B := by
    rw [heig A B, recoveredCovariance, Finset.mul_sum]
    apply Finset.sum_congr rfl
    intro k _
    rw [scaledTransform, scaledTransform, hlat]
    ring
  by_cases hA : covStdDevs cov A = 0
  · have hAA : cov A A = 0 :=
      (Real.sqrt_eq_zero (hdiag A)).mp hA
    have hAB : cov A B = 0 := hzero A hAA B
    rw [key, hA, hAB]
    ring
  · by_cases hB : covStdDevs cov B = 0
    · have hBB : cov B B = 0 :=
        (Real.sqrt_eq_zero (hdiag B)).mp hB
      have hAB : cov A B = 0 := by
        rw [hsym A B]
        exact hzero B hBB A
      rw [key, hB, hAB]
      ring
    · rw [key, correlationOf, normVector, normVector, if_neg hB, if_neg hA]
      field_simp
      ring

/-- Covariance matrix of the C3 witness: the 1×1 matrix `[[4]]`. -/
noncomputable def c3cov : Fin 1 → Fin 1 → ℝ := fun _ _ => 4

/-- Eigenvector matrix of the C3 witness: `[[1]]`. -/
noncomputable def c3transform : Fin 1 → Fin 1 → ℝ := fun _ _ => 1

/-- Eigenvalues of the C3 witness: `[1]`. -/
noncomputable def c3variances : Fin 1 → ℝ := fun _ => 1

/-- Witness for C3: the 1×1 covariance matrix `[[4]]`, whose correlation
matrix `[[1]]` has the exact eigendecomposition with eigenvalue `1` and
eigenvector `[1]`; the recomputed covariance reproduces the matrix. -/
theorem c3_witness :
    recoveredCovariance c3cov c3transform c3variances 0 0 = c3cov 0 0 := by
  have hs4 : Real.sqrt 4 ≠ 0 := by
    have : (0 : ℝ) < Real.sqrt 4 := Real.sqrt_pos.mpr (by norm_num)
    linarith
  refine c3_correlated_values_round_trip c3cov c3transform c3variances
    (fun i j => rfl) (fun i => by norm_num [c3cov]) ?_ ?_
    (fun k => by norm_num [c3variances]) 0 0
  · intro i h
    exfalso
    rw [c3cov] at h
    norm_num at h
  · intro i j
    have hi : covStdDevs c3cov i = Real.sqrt 4 := by
      simp [covStdDevs, c3cov]
    have hj : covStdDevs c3cov j = Real.sqrt 4 := by
      simp [covStdDevs, c3cov]
    have h41 : (4 : ℝ) / Real.sqrt 4 / Real.sqrt 4 = 1 := by
      rw [div_div, Real.mul_self_sqrt (by norm_num)]
      norm_num
    rw [correlationOf, normVector, normVector, hi, hj, if_neg hs4]
    simp [c3cov, c3transform, c3variances, h41]

/-!
### The raw list-level behaviour of `correlated_values` (claim C10)
-/

/-- Embedding of `np.diag` of a (square) matrix given as a list of rows. -/
def diag_list (cov : List (List ℝ)) : List ℝ :=
  cov.enum.map (fun p => p.2.getD p.1 0)

/-- Embedding of `std_devs = np.sqrt(np.diag(covariance_mat))` (core.py line 16),
list view. -/
noncomputable def std_devs_list (cov : List (List ℝ)) : List ℝ :=
  (diag_list cov).map Real.sqrt

/-- Embedding of `norm_vector` with the zero-entry guard (core.py lines 18-19),
list view. -/
noncomputable def norm_vector_list (cov : List (List ℝ)) : List ℝ :=
  (std_devs_list cov).map (fun s => if s = 0 then 1 else s)

/-- The normalized correlation matrix (core.py line 23), list view; this
is what `correlated_values` hands to `np.linalg.eigh` inside
`correlated_values_norm`. -/
noncomputable def correlation_list (cov : List (List ℝ)) :
    List (List ℝ) :=
  (cov.zip (norm_vector_list cov)).map
    (fun p => (p.1.zip (norm_vector_list cov)).map
      (fun q => q.1 / q.2 / p.2))

/-- Embedding of `correlated_values_norm` (core.py lines 28-54), list view.  The
eigendecomposition `(variances, transform)` stands for
`np.linalg.eigh(correlation_mat)`.  Negative eigenvalues are clamped, one
latent `Variable(0, sqrt(variance))` is built per eigenvalue (represented
here by its std_dev), the eigenvector rows are scaled by the input
std_devs, and one `(value, dict(zip(variables, coords)))` pair is built
per `(coords, value)` in `zip(transform, nominal_values)` — every `zip`
silently truncating to the shorter operand, exactly as in Python. -/
noncomputable def correlated_values_norm_list
    (values_with_std_dev : List (ℝ × ℝ)) (variances : List ℝ)
    (transform : List (List ℝ)) : List (ℝ × List (ℝ × ℝ)) :=
  let nominal_values := values_with_std_dev.map Prod.fst
  let std_devs := values_with_std_dev.map Prod.snd
  let clamped := variances.map (fun v => if v < 0 then (0 : ℝ) else v)
  let latent_std_devs := clamped.map Real.sqrt
  let transform2 := (transform.zip std_devs).map
    (fun p => p.1.map (fun t => t * p.2))
  (transform2.zip nominal_values).map
    (fun p => (p.2, latent_std_devs.zip p.1))

/-- Embedding of `correlated_values` (core.py lines 15-25), list view:
`correlated_values_norm(list(zip(nom_values, std_devs)), ...)` — the
`zip` silently truncates when `nom_values` and the covariance diagonal
have different lengths; no dimensionality check is performed. -/
noncomputable def correlated_values_list (nom : List ℝ)
    (cov : List (List ℝ)) (variances : List ℝ)
    (transform : List (List ℝ)) : List (ℝ × List (ℝ × ℝ)) :=
  correlated_values_norm_list (nom.zip (std_devs_list cov)) variances
    transform

/-- Claim C10 counterexample. `correlated_values` with 3 nominal values and
a 2×2 covariance matrix raises no dimensionality-mismatch error: it
returns 2 values, silently dropping the third nominal value. -/
theorem c10_counterexample :
    (correlated_values_list [1, 2, 3] [[4, 0], [0, 9]] [1, 1]
        [[1, 0], [0, 1]]).length = 2
    ∧ ([1, 2, 3] : List ℝ).length = 3
    ∧ (correlated_values_list [1, 2, 3] [[4, 0], [0, 9]] [1, 1]
          [[1, 0], [0, 1]]).length ≠ ([1, 2, 3] : List ℝ).length := by
  refine ⟨?_, by norm_num, ?_⟩ <;>
    simp [correlated_values_list, correlated_values_norm_list,
      std_devs_list, diag_list]

/-- Claim C10 (amended). `correlated_values` performs no dimensionality
check: whenever the eigenvector matrix has as many rows as the covariance
matrix (the `eigh` contract for a square input) and there are at least as
many nominal values as covariance rows, it silently truncates, returning
exactly one value per covariance row and dropping the surplus nominal
values.  (A mismatch in the other direction surfaces only as a generic
broadcasting error inside the numeric library, not as a dedicated
dimensionality-mismatch error.) -/
theorem c10_no_dimension_check (nom : List ℝ) (cov : List (List ℝ))
    (variances : List ℝ) (transform : List (List ℝ))
    (h1 : transform.length = cov.length) (h2 : cov.length ≤ nom.length) :
    (correlated_values_list nom cov variances transform).length
      = cov.length := by
  simp [correlated_values_list, correlated_values_norm_list,
    std_devs_list, diag_list, h1]
  omega

/-- Witness for the amended C10 at a concrete truncating input. -/
theorem c10_witness :
    ([[1, 0], [0, 1]] : List (List ℝ)).length
        = ([[1, 0], [0, 1]] : List (List ℝ)).length
    ∧ ([[1, 0], [0, 1]] : List (List ℝ)).length
        ≤ ([5, 6, 7] : List ℝ).length
    ∧ (correlated_values_list [5, 6, 7] [[1, 0], [0, 1]] [1, 1]
          [[1, 0], [0, 1]]).length
        = ([[1, 0], [0, 1]] : List (List ℝ)).length :=
  ⟨rfl, by norm_num,
    c10_no_dimension_check [5, 6, 7] [[1, 0], [0, 1]] [1, 1]
      [[1, 0], [0, 1]] rfl (by norm_num)⟩

end LabTools
